import Mathlib

/-!
# Verification of the nyarr tar-to-NAR subsystem

A shallow embedding of `crates/nyarr/src/lib.rs` and `crates/nyarr/src/tar.rs`.
Bytes are modelled as `Nat`, byte vectors as `List Nat`, path components as
byte vectors and a `FileName` as a list of components.  The `BTreeMap` backing
`Directory` is modelled as an association list kept sorted by the raw-byte
lexicographic order (the `Ord` instance of `Vec<u8>`); its `insert` is
`btreeInsert` below.  Writers (`std::io::Write`) are modelled as the list of
bytes written so far, threaded through each serialisation function.
-/

namespace Nyarr

/-- A byte vector, e.g. a `Vec<u8>` path component; one `u8` is a `Nat`. -/
abbrev Bytes := List Nat

/-- `b'/'` -/
def slashByte : Nat := 47

/-- `b'.'` -/
def dotByte : Nat := 46

/-- Rust's `slice::split(|&c| c == b'/')`: splits at every separator and keeps
empty pieces; the empty slice yields one empty piece. -/
def rustSplit : Bytes → List Bytes
  | [] => [[]]
  | c :: rest =>
    if c = slashByte then
      [] :: rustSplit rest
    else
      match rustSplit rest with
      | [] => [[c]]
      | p :: ps => (c :: p) :: ps

/-- `FileName(Vec<PathComponent>)` from `lib.rs`: a list of path components. -/
abbrev FileName := List Bytes

/-- The filter used by `FileName::try_from`: drop components equal to `b""`
or `b"."`. -/
def keepComponent (e : Bytes) : Bool :=
  e != ([] : Bytes) && e != [dotByte]

/-- `impl TryFrom<&[u8]> for FileName` (`lib.rs` 68-82): split on `/`, drop
empty and `"."` components, error `"empty file name"` when nothing is left. -/
def FileName.tryFrom (value : Bytes) : Except String FileName :=
  let bits := (rustSplit value).filter keepComponent
  if bits.length = 0 then .error "empty file name" else .ok bits

/-- `FileName::singleton` (`lib.rs` 39-41). -/
def FileName.singleton (item : Bytes) : FileName := [item]

/-- `FileName::drop_first` (`lib.rs` 55-61): `None` when there are at most
one component, otherwise the components after the first. -/
def FileName.dropFirst (p : FileName) : Option FileName :=
  if p.length ≤ 1 then none else some p.tail

/-- `FileName::to_path` (`lib.rs` 63-65): `self.0.join(&b'/')`. -/
def FileName.toPath : FileName → Bytes
  | [] => []
  | [c] => c
  | c :: c' :: rest => c ++ slashByte :: FileName.toPath (c' :: rest)

/-- The `Ord` instance of `Vec<u8>`: strict lexicographic raw-byte order,
used by the `BTreeMap` keyed on `PathComponent`. -/
def bytesLt : Bytes → Bytes → Bool
  | [], [] => false
  | [], _ :: _ => true
  | _ :: _, [] => false
  | a :: as, b :: bs => if a < b then true else if b < a then false else bytesLt as bs

/-- `enum Executable` (`lib.rs` 11-15). -/
inductive Executable where
  | isExecutable
  | notExecutable
deriving DecidableEq, Repr

/-- `enum FsObject<T>` (`lib.rs` 121-125) with `T = ConstByteStream`, and the
`Directory` newtype inlined as its sorted association list. -/
inductive FsObject where
  | file (exec : Executable) (content : Bytes)
  | directory (entries : List (Bytes × FsObject))
  | symlink (target : FileName)

/-- The entries of a `Directory`: the `BTreeMap<PathComponent, Box<FsObject>>`
as a by-key sorted association list. -/
abbrev Dir := List (Bytes × FsObject)

/-- `BTreeMap::insert`: place the binding at its ordered position, replacing
an existing binding of the same key. -/
def btreeInsert (k : Bytes) (v : FsObject) : Dir → Dir
  | [] => [(k, v)]
  | (k', v') :: rest =>
    if bytesLt k k' then (k, v) :: (k', v') :: rest
    else if bytesLt k' k then (k', v') :: btreeInsert k v rest
    else (k, v) :: rest

/-- `BTreeMap` lookup (the read half of `entry(..)`). -/
def btreeLookup (k : Bytes) : Dir → Option FsObject
  | [] => none
  | (k', v') :: rest => if k = k' then some v' else btreeLookup k rest

/-- The three failure modes of `Directory::insert` (`lib.rs` 198-224): the
`Err("attempt to insert into a non directory")` return, the
`panic!("how did we get an empty path?")` branch for the empty path, and the
`assert_ne!(top, b"")` panic (`lib.rs` 206) for an empty head component on a
path of length at least two. -/
inductive InsertErr where
  | nonDirectory
  | emptyPath
  | emptyComponent
deriving DecidableEq, Repr

/-- `Directory::insert` (`lib.rs` 198-224).  Length-one paths insert (or
overwrite) at that component; longer paths first run `assert_ne!(top, b"")`
(modelled as the `.emptyComponent` failure), then find-or-create a directory
at the head (`entry(..).or_insert_with(Directory::default)`) and recurse on
the tail; an existing non-directory head is the error case; the empty path
is the panic branch. -/
def dirInsert : Dir → FileName → FsObject → Except InsertErr Dir
  | _, [], _ => .error .emptyPath
  | d, [one], obj => .ok (btreeInsert one obj d)
  | d, top :: r :: rest, obj =>
    if top = [] then .error .emptyComponent
    else
      match (btreeLookup top d).getD (.directory []) with
      | .directory sub =>
        match dirInsert sub (r :: rest) obj with
        | .ok sub' => .ok (btreeInsert top (.directory sub') d)
        | .error e => .error e
      | _ => .error .nonDirectory

/-! ## The NAR serialiser (`lib.rs` 155-276)

A writer is the list of bytes written so far; each function returns the
writer extended with its output. -/

/-- `u64::to_le_bytes` of a length: eight bytes, least significant first. -/
def u64le (n : Nat) : Bytes :=
  [n % 256, n / 256 % 256, n / 256 ^ 2 % 256, n / 256 ^ 3 % 256,
   n / 256 ^ 4 % 256, n / 256 ^ 5 % 256, n / 256 ^ 6 % 256, n / 256 ^ 7 % 256]

/-- `Serializable::serialise_just` for `&[u8]` and for `ConstByteStream`
(`lib.rs` 162-187): length as `u64` little-endian, the bytes, then zero
padding to the next multiple of eight. -/
def serialiseJust (s : Bytes) (w : Bytes) : Bytes :=
  let len := s.length
  let padNum := if len % 8 = 0 then 0 else 8 - len % 8
  w ++ u64le len ++ s ++ List.replicate padNum 0

/-- `fn str` (`lib.rs` 194-196). -/
def str (s : Bytes) (w : Bytes) : Bytes := serialiseJust s w

/-- `b"type"` -/
def typeBytes : Bytes := [116, 121, 112, 101]

/-- `b"regular"` -/
def regularBytes : Bytes := [114, 101, 103, 117, 108, 97, 114]

/-- `b"executable"` -/
def executableBytes : Bytes := [101, 120, 101, 99, 117, 116, 97, 98, 108, 101]

/-- `b"contents"` -/
def contentsBytes : Bytes := [99, 111, 110, 116, 101, 110, 116, 115]

/-- `b"directory"` -/
def directoryBytes : Bytes := [100, 105, 114, 101, 99, 116, 111, 114, 121]

/-- `b"entry"` -/
def entryBytes : Bytes := [101, 110, 116, 114, 121]

/-- `b"name"` -/
def nameBytes : Bytes := [110, 97, 109, 101]

/-- `b"node"` -/
def nodeBytes : Bytes := [110, 111, 100, 101]

/-- `b"symlink"` -/
def symlinkBytes : Bytes := [115, 121, 109, 108, 105, 110, 107]

/-- `b"target"` -/
def targetBytes : Bytes := [116, 97, 114, 103, 101, 116]

/-- `b"("` -/
def lparenBytes : Bytes := [40]

/-- `b")"` -/
def rparenBytes : Bytes := [41]

/-- `b"nix-archive-1"` -/
def narMagicBytes : Bytes := [110, 105, 120, 45, 97, 114, 99, 104, 105, 118, 101, 45, 49]

/-- `fn type_` (`lib.rs` 189-192): `str("type"); str(s)`. -/
def type_ (s : Bytes) (w : Bytes) : Bytes := str s (str typeBytes w)

mutual

/-- `FsObject::serialise_one` (`lib.rs` 243-275), with the per-entry body of
the directory loop (which is `serialise_wrapped` sandwiched in the `entry`
frame) unfolded into `serialiseEntries`. -/
def FsObject.serialiseOne : FsObject → Bytes → Bytes
  | .file exec content, w =>
    let w := type_ regularBytes w
    let w := match exec with
      | .isExecutable => str executableBytes w
      | .notExecutable => w
    let w := str contentsBytes w
    serialiseJust content w
  | .directory entries, w => serialiseEntries entries (type_ directoryBytes w)
  | .symlink name, w =>
    let w := type_ symlinkBytes w
    let w := str targetBytes w
    serialiseJust (FileName.toPath name) w

/-- The `for (name, v) in &entries.0` loop of the directory arm
(`lib.rs` 258-266), iterating in the map's sorted order. -/
def serialiseEntries : Dir → Bytes → Bytes
  | [], w => w
  | (name, v) :: rest, w =>
    let w := str entryBytes w
    let w := str lparenBytes w
    let w := str nameBytes w
    let w := str name w
    let w := str nodeBytes w
    let w := str rparenBytes (FsObject.serialiseOne v (str lparenBytes w))
    let w := str rparenBytes w
    serialiseEntries rest w

end

/-- `FsObject::serialise_wrapped` (`lib.rs` 234-238). -/
def FsObject.serialiseWrapped (fso : FsObject) (w : Bytes) : Bytes :=
  str rparenBytes (fso.serialiseOne (str lparenBytes w))

/-- `FsObject::serialise_toplevel` (`lib.rs` 228-231). -/
def FsObject.serialiseToplevel (fso : FsObject) (w : Bytes) : Bytes :=
  fso.serialiseWrapped (str narMagicBytes w)

/-! ## The tar decoder (`tar.rs`) -/

/-- `enum StripRoot` (`tar.rs` 11-15). -/
inductive StripRoot where
  | stripRoot
  | dontStripRoot
deriving DecidableEq, Repr

/-- The entry classes `tar_to_fsobject` distinguishes via
`header().entry_type()`: directory, regular file, symlink, anything else. -/
inductive TarEntryType where
  | dir
  | file
  | symlink
  | other
deriving DecidableEq, Repr

/-- The fields of a tar member that `tar_to_fsobject` reads: `path_bytes()`,
the entry type, `header().mode()`, the file contents and
`link_name_bytes()` (`none` models a missing link name). -/
structure TarEntry where
  path : Bytes
  etype : TarEntryType
  mode : Nat
  content : Bytes
  linkTarget : Option Bytes

/-- The `obj` produced for one member (`tar.rs` 39-62): a directory, a file
whose executable bit is `mode & 0o111 != 0`, a symlink whose target is parsed
by `FileName::try_from`, or `none` for a skipped unknown entry type. -/
def entryObject (e : TarEntry) : Except String (Option FsObject) :=
  match e.etype with
  | .dir => .ok (some (.directory []))
  | .file =>
    .ok (some (.file
      (if e.mode &&& 73 ≠ 0 then .isExecutable else .notExecutable)
      e.content))
  | .symlink =>
    match e.linkTarget with
    | none => .error "empty link name"
    | some t =>
      match FileName.tryFrom t with
      | .error msg => .error msg
      | .ok p => .ok (some (.symlink p))
  | .other => .ok none

/-- Processing of one tar member by the loop of `tar_to_fsobject`
(`tar.rs` 35-82): classify the member, parse its path (a parse failure skips
the member), under `StripRoot` drop the first component (skipping the member
when nothing remains), and insert into the tree.  The two panic branches of
`Directory::insert` are mapped to distinct error strings; both are
unreachable here because `FileName::try_from` yields non-empty paths with
non-empty components. -/
def tarProcessEntry (strip : StripRoot) (tree : Dir) (e : TarEntry) :
    Except String Dir :=
  match entryObject e with
  | .error msg => .error msg
  | .ok none => .ok tree
  | .ok (some obj) =>
    match FileName.tryFrom e.path with
    | .error _ => .ok tree
    | .ok name =>
      match (match strip with
             | .stripRoot => FileName.dropFirst name
             | .dontStripRoot => some name) with
      | none => .ok tree
      | some name =>
        match dirInsert tree name obj with
        | .ok tree' => .ok tree'
        | .error .nonDirectory => .error "attempt to insert into a non directory"
        | .error .emptyPath => .error "how did we get an empty path?"
        | .error .emptyComponent => .error "assertion failed: empty path component"

/-- `tar_to_fsobject` (`tar.rs` 28-85): fold the members into an initially
empty tree and wrap the result in an outer `Directory`. -/
def tarToFsObject (entries : List TarEntry) (strip : StripRoot) :
    Except String FsObject :=
  match entries.foldlM (tarProcessEntry strip) ([] : Dir) with
  | .ok tree => .ok (.directory tree)
  | .error e => .error e

/-! ## Derived definitions used by the statements -/

/-- The bytes one `str(s, ..)` call emits: length prefix, content, padding. -/
def strOut (s : Bytes) : Bytes :=
  u64le s.length ++ s ++ List.replicate (if s.length % 8 = 0 then 0 else 8 - s.length % 8) 0

/-- The bytes `serialise_one` emits on its own. -/
def FsObject.narOne (f : FsObject) : Bytes := f.serialiseOne []

/-- The bytes the directory-entry loop emits on its own. -/
def entriesOut (l : Dir) : Bytes := serialiseEntries l []

/-- `k` is strictly below every key of `l` in raw-byte order. -/
def allLtB (k : Bytes) (l : Dir) : Bool := l.all (fun kv => bytesLt k kv.1)

mutual

/-- The `BTreeMap` representation invariant, everywhere in the tree: every
directory's association list is strictly ascending in raw-byte key order. -/
def FsObject.sortedDeep : FsObject → Bool
  | .file _ _ => true
  | .symlink _ => true
  | .directory entries => entriesSorted entries

/-- Keys strictly ascending and every child `sortedDeep`. -/
def entriesSorted : Dir → Bool
  | [] => true
  | (k, v) :: rest => allLtB k rest && FsObject.sortedDeep v && entriesSorted rest

end

/-- A sequence of `Directory::insert` calls starting from the empty root,
in the given order. -/
def buildTree (ins : List (FileName × FsObject)) : Except InsertErr Dir :=
  ins.foldlM (fun d pr => dirInsert d pr.1 pr.2) ([] : Dir)

/-- Some strict prefix of the path (all components but the last may start
one) resolves to an existing entry that is not a directory: the condition
under which `Directory::insert` fails. -/
def nonDirOnPath : Dir → FileName → Bool
  | _, [] => false
  | _, [_] => false
  | d, top :: r :: rest =>
    match btreeLookup top d with
    | none => false
    | some (.directory sub) => nonDirOnPath sub (r :: rest)
    | some _ => true

/-- Modelled from the spec: the §4.3 encoding of an executable regular file,
whose executable marker is the two strings `"executable"` and `""`.  Used
only to compare the source's one-string emission against the mandated
form. -/
def specRegularExec (content : Bytes) (w : Bytes) : Bytes :=
  serialiseJust content
    (str contentsBytes (str ([] : Bytes) (str executableBytes (type_ regularBytes w))))

/-- The tar member `pkg-1.0/README` of the spec's strip-root scenario:
a regular file, mode `0o644`, contents `"A"`. -/
def tarEntryReadme : TarEntry :=
  ⟨[112, 107, 103, 45, 49, 46, 48, 47, 82, 69, 65, 68, 77, 69], .file, 420, [65], none⟩

/-- The tar member `pkg-1.0/src/main.c`: a regular file, mode `0o644`,
contents `"B"`. -/
def tarEntryMainC : TarEntry :=
  ⟨[112, 107, 103, 45, 49, 46, 48, 47, 115, 114, 99, 47, 109, 97, 105, 110, 46, 99],
   .file, 420, [66], none⟩

/-- The tar member `pkg-1.0/`: a directory, mode `0o755`. -/
def tarEntryTopDir : TarEntry :=
  ⟨[112, 107, 103, 45, 49, 46, 48, 47], .dir, 493, [], none⟩

/-! ## The bytes contributed by each serialisation step

The `_eq` lemmas show every serialisation function only appends to its
writer, never inspecting or altering what was already written. -/

theorem serialiseJust_eq (s w : Bytes) : serialiseJust s w = w ++ strOut s := by
  simp [serialiseJust, strOut]

theorem str_eq (s w : Bytes) : str s w = w ++ strOut s := by
  simp [str, serialiseJust, strOut]

theorem type__eq (s w : Bytes) : type_ s w = w ++ (strOut typeBytes ++ strOut s) := by
  simp [type_, str_eq]

mutual

theorem FsObject.serialiseOne_eq (f : FsObject) (w : Bytes) :
    f.serialiseOne w = w ++ f.narOne := by
  match f with
  | .file e c =>
    cases e <;>
      simp [FsObject.narOne, FsObject.serialiseOne, serialiseJust_eq, str_eq, type__eq]
  | .directory entries =>
    rw [FsObject.narOne, FsObject.serialiseOne, FsObject.serialiseOne,
      serialiseEntries_eq entries (type_ directoryBytes w),
      serialiseEntries_eq entries (type_ directoryBytes []), type__eq, type__eq]
    simp
  | .symlink t =>
    simp [FsObject.narOne, FsObject.serialiseOne, serialiseJust_eq, str_eq, type__eq]

theorem serialiseEntries_eq (l : Dir) (w : Bytes) :
    serialiseEntries l w = w ++ entriesOut l := by
  match l with
  | [] => simp [entriesOut, serialiseEntries]
  | (name, v) :: rest =>
    rw [entriesOut, serialiseEntries, serialiseEntries]
    rw [serialiseEntries_eq rest, serialiseEntries_eq rest]
    rw [FsObject.serialiseOne_eq v, FsObject.serialiseOne_eq v]
    simp [str_eq]

end

theorem FsObject.serialiseWrapped_eq (f : FsObject) (w : Bytes) :
    f.serialiseWrapped w = w ++ f.serialiseWrapped [] := by
  rw [FsObject.serialiseWrapped, FsObject.serialiseWrapped,
    str_eq, str_eq, FsObject.serialiseOne_eq, FsObject.serialiseOne_eq,
    str_eq, str_eq]
  simp

theorem FsObject.serialiseToplevel_eq (f : FsObject) (w : Bytes) :
    f.serialiseToplevel w = w ++ f.serialiseToplevel [] := by
  rw [FsObject.serialiseToplevel, FsObject.serialiseToplevel,
    FsObject.serialiseWrapped_eq f (str narMagicBytes w),
    FsObject.serialiseWrapped_eq f (str narMagicBytes []),
    str_eq, str_eq]
  simp


/-! ## Facts about `rustSplit` and `FileName::try_from` -/

theorem rustSplit_ne_nil (l : Bytes) : rustSplit l ≠ [] := by
  induction l with
  | nil => simp [rustSplit]
  | cons c rest ih =>
    rw [rustSplit]
    by_cases h : c = slashByte
    · simp [h]
    · simp only [if_neg h]
      cases hr : rustSplit rest with
      | nil => simp
      | cons p ps => simp

theorem slash_not_mem_of_mem_rustSplit (l : Bytes) :
    ∀ p ∈ rustSplit l, slashByte ∉ p := by
  induction l with
  | nil => simp [rustSplit]
  | cons c rest ih =>
    intro p hp
    rw [rustSplit] at hp
    by_cases h : c = slashByte
    · rw [if_pos h] at hp
      rcases List.mem_cons.mp hp with hp | hp
      · simp [hp]
      · exact ih p hp
    · rw [if_neg h] at hp
      cases hr : rustSplit rest with
      | nil => exact absurd hr (rustSplit_ne_nil rest)
      | cons q qs =>
        rw [hr] at hp
        rcases List.mem_cons.mp hp with hp | hp
        · subst hp
          intro hmem
          rcases List.mem_cons.mp hmem with hc | hc
          · exact h hc.symm
          · exact ih q (hr ▸ List.mem_cons_self q qs) hc
        · exact ih p (hr ▸ List.mem_cons_of_mem q hp)

theorem rustSplit_no_slash (l : Bytes) (h : slashByte ∉ l) : rustSplit l = [l] := by
  induction l with
  | nil => rfl
  | cons c rest ih =>
    rw [rustSplit]
    have hc : ¬c = slashByte := fun hc => h (hc ▸ List.mem_cons_self c rest)
    rw [if_neg hc, ih (fun hm => h (List.mem_cons_of_mem c hm))]

theorem rustSplit_append_slash (a b : Bytes) (h : slashByte ∉ a) :
    rustSplit (a ++ slashByte :: b) = a :: rustSplit b := by
  induction a with
  | nil => simp [rustSplit]
  | cons c rest ih =>
    have hc : ¬c = slashByte := fun hc => h (hc ▸ List.mem_cons_self c rest)
    rw [List.cons_append, rustSplit, if_neg hc,
      ih (fun hm => h (List.mem_cons_of_mem c hm))]

theorem rustSplit_toPath (p : FileName) (hne : p ≠ [])
    (hns : ∀ c ∈ p, slashByte ∉ c) :
    rustSplit (FileName.toPath p) = p := by
  induction p with
  | nil => exact absurd rfl hne
  | cons c rest ih =>
    cases rest with
    | nil =>
      rw [FileName.toPath]
      exact rustSplit_no_slash c (hns c (List.mem_cons_self c []))
    | cons c' rest' =>
      rw [FileName.toPath,
        rustSplit_append_slash c _ (hns c (List.mem_cons_self c _)),
        ih (by simp) (fun d hd => hns d (List.mem_cons_of_mem c hd))]

theorem tryFrom_ok_facts (t : Bytes) (p : FileName)
    (h : FileName.tryFrom t = .ok p) :
    p ≠ [] ∧ p = (rustSplit t).filter keepComponent := by
  rw [FileName.tryFrom] at h
  by_cases hl : ((rustSplit t).filter keepComponent).length = 0
  · rw [if_pos hl] at h
    exact absurd h (by simp)
  · rw [if_neg hl] at h
    have hp : p = (rustSplit t).filter keepComponent := by
      injection h with h
      exact h.symm
    refine ⟨?_, hp⟩
    intro hnil
    rw [hp] at hnil
    exact hl (by simp [hnil])

theorem tryFrom_toPath (t : Bytes) (p : FileName)
    (h : FileName.tryFrom t = .ok p) :
    FileName.tryFrom (FileName.toPath p) = .ok p := by
  obtain ⟨hne, hp⟩ := tryFrom_ok_facts t p h
  have hns : ∀ c ∈ p, slashByte ∉ c := by
    intro c hc
    rw [hp] at hc
    exact slash_not_mem_of_mem_rustSplit t c (List.mem_of_mem_filter hc)
  have hkeep : ∀ c ∈ p, keepComponent c = true := by
    intro c hc
    rw [hp] at hc
    exact List.of_mem_filter hc
  rw [FileName.tryFrom, rustSplit_toPath p hne hns, List.filter_eq_self.mpr hkeep,
    if_neg (by simp [hne])]

/-! ## Facts about the raw-byte order and sorted directories -/

theorem bytesLt_trans (a : Bytes) : ∀ b c : Bytes,
    bytesLt a b = true → bytesLt b c = true → bytesLt a c = true := by
  induction a with
  | nil =>
    intro b c h1 h2
    cases c with
    | nil =>
      cases b with
      | nil => exact h1
      | cons y ys => simp [bytesLt] at h2
    | cons z zs => rfl
  | cons x xs ih =>
    intro b c h1 h2
    cases b with
    | nil => simp [bytesLt] at h1
    | cons y ys =>
      cases c with
      | nil => simp [bytesLt] at h2
      | cons z zs =>
        rw [bytesLt] at h1 h2 ⊢
        by_cases hxy : x < y
        · rw [if_pos hxy] at h1
          by_cases hyz : y < z
          · rw [if_pos (by omega : x < z)]
          · rw [if_neg hyz] at h2
            by_cases hzy : z < y
            · rw [if_pos hzy] at h2
              exact absurd h2 (by simp)
            · rw [if_pos (by omega : x < z)]
        · rw [if_neg hxy] at h1
          by_cases hyx : y < x
          · rw [if_pos hyx] at h1
            exact absurd h1 (by simp)
          · rw [if_neg hyx] at h1
            by_cases hyz : y < z
            · rw [if_pos (by omega : x < z)]
            · rw [if_neg hyz] at h2
              by_cases hzy : z < y
              · rw [if_pos hzy] at h2
                exact absurd h2 (by simp)
              · rw [if_neg hzy] at h2
                rw [if_neg (by omega : ¬x < z), if_neg (by omega : ¬z < x)]
                exact ih ys zs h1 h2

theorem bytesLt_eq_of_not (a : Bytes) : ∀ b : Bytes,
    bytesLt a b = false → bytesLt b a = false → a = b := by
  induction a with
  | nil =>
    intro b h1 _
    cases b with
    | nil => rfl
    | cons y ys => simp [bytesLt] at h1
  | cons x xs ih =>
    intro b h1 h2
    cases b with
    | nil => simp [bytesLt] at h2
    | cons y ys =>
      rw [bytesLt] at h1 h2
      by_cases hxy : x < y
      · rw [if_pos hxy] at h1
        exact absurd h1 (by simp)
      · by_cases hyx : y < x
        · rw [if_pos hyx] at h2
          exact absurd h2 (by simp)
        · rw [if_neg hxy, if_neg hyx] at h1
          rw [if_neg hyx, if_neg hxy] at h2
          have hxe : x = y := by omega
          rw [hxe, ih ys h1 h2]

theorem allLtB_of_lt (k k2 : Bytes) (l : Dir) (hk : bytesLt k k2 = true)
    (h : allLtB k2 l = true) : allLtB k l = true := by
  simp only [allLtB, List.all_eq_true] at h ⊢
  exact fun kv hkv => bytesLt_trans k k2 kv.1 hk (h kv hkv)

theorem allLtB_btreeInsert (k2 k : Bytes) (v : FsObject) (hk : bytesLt k2 k = true) :
    ∀ l : Dir, allLtB k2 l = true → allLtB k2 (btreeInsert k v l) = true := by
  intro l
  induction l with
  | nil =>
    intro _
    simp [btreeInsert, allLtB, hk]
  | cons kv rest ih =>
    intro h
    obtain ⟨k', v'⟩ := kv
    simp only [allLtB, List.all_cons, Bool.and_eq_true] at h
    obtain ⟨hh, ht⟩ := h
    rw [btreeInsert]
    by_cases h1 : bytesLt k k' = true
    · rw [if_pos h1]
      simp only [allLtB, List.all_cons, Bool.and_eq_true]
      exact ⟨hk, hh, ht⟩
    · rw [if_neg h1]
      by_cases h2 : bytesLt k' k = true
      · rw [if_pos h2]
        simp only [allLtB, List.all_cons, Bool.and_eq_true]
        exact ⟨hh, ih ht⟩
      · rw [if_neg h2]
        simp only [allLtB, List.all_cons, Bool.and_eq_true]
        exact ⟨hk, ht⟩

theorem entriesSorted_btreeInsert (k : Bytes) (v : FsObject)
    (hv : FsObject.sortedDeep v = true) :
    ∀ l : Dir, entriesSorted l = true → entriesSorted (btreeInsert k v l) = true := by
  intro l
  induction l with
  | nil =>
    intro _
    simp [btreeInsert, entriesSorted, allLtB, hv]
  | cons kv rest ih =>
    intro hs
    obtain ⟨k', v'⟩ := kv
    rw [entriesSorted, Bool.and_eq_true, Bool.and_eq_true] at hs
    obtain ⟨⟨ha, hv'⟩, hr⟩ := hs
    rw [btreeInsert]
    by_cases h1 : bytesLt k k' = true
    · rw [if_pos h1]
      rw [entriesSorted, Bool.and_eq_true, Bool.and_eq_true]
      refine ⟨⟨?_, hv⟩, ?_⟩
      · simp only [allLtB, List.all_cons, Bool.and_eq_true]
        exact ⟨h1, by simpa [allLtB] using allLtB_of_lt k k' rest h1 ha⟩
      · rw [entriesSorted, Bool.and_eq_true, Bool.and_eq_true]
        exact ⟨⟨ha, hv'⟩, hr⟩
    · rw [if_neg h1]
      by_cases h2 : bytesLt k' k = true
      · rw [if_pos h2]
        rw [entriesSorted, Bool.and_eq_true, Bool.and_eq_true]
        exact ⟨⟨allLtB_btreeInsert k' k v h2 rest ha, hv'⟩, ih hr⟩
      · rw [if_neg h2]
        have hke : k = k' :=
          bytesLt_eq_of_not k k' (by simpa using h1) (by simpa using h2)
        rw [entriesSorted, Bool.and_eq_true, Bool.and_eq_true]
        exact ⟨⟨hke ▸ ha, hv⟩, hr⟩

theorem sortedDeep_of_btreeLookup (k : Bytes) :
    ∀ l : Dir, entriesSorted l = true → ∀ fso : FsObject,
      btreeLookup k l = some fso → FsObject.sortedDeep fso = true := by
  intro l
  induction l with
  | nil =>
    intro _ fso h
    simp [btreeLookup] at h
  | cons kv rest ih =>
    intro hs fso h
    obtain ⟨k', v'⟩ := kv
    rw [entriesSorted, Bool.and_eq_true, Bool.and_eq_true] at hs
    rw [btreeLookup] at h
    by_cases hk : k = k'
    · rw [if_pos hk] at h
      injection h with h
      exact h ▸ hs.1.2
    · rw [if_neg hk] at h
      exact ih hs.2 fso h

theorem dirInsert_sortedDeep (obj : FsObject) (hobj : FsObject.sortedDeep obj = true) :
    ∀ (path : FileName) (d : Dir) (d' : Dir), entriesSorted d = true →
      dirInsert d path obj = .ok d' → entriesSorted d' = true := by
  intro path
  induction path with
  | nil =>
    intro d d' _ h
    simp [dirInsert] at h
  | cons top rest ih =>
    intro d d' hd h
    cases rest with
    | nil =>
      rw [dirInsert] at h
      injection h with h
      exact h ▸ entriesSorted_btreeInsert top obj hobj d hd
    | cons r rest' =>
      rw [dirInsert] at h
      by_cases htop : top = []
      · rw [if_pos htop] at h
        exact absurd h (by simp)
      rw [if_neg htop] at h
      cases hlk : btreeLookup top d with
      | none =>
        rw [hlk] at h
        simp only [Option.getD_none] at h
        cases hrec : dirInsert [] (r :: rest') obj with
        | ok sub' =>
          rw [hrec] at h
          injection h with h
          have hsub' : entriesSorted sub' = true := ih [] sub' rfl hrec
          exact h ▸ entriesSorted_btreeInsert top (.directory sub')
            (by rw [FsObject.sortedDeep]; exact hsub') d hd
        | error e =>
          rw [hrec] at h
          exact absurd h (by simp)
      | some fso =>
        rw [hlk] at h
        simp only [Option.getD_some] at h
        cases fso with
        | file e c =>
          have h2 : (Except.error InsertErr.nonDirectory : Except InsertErr Dir) = .ok d' := h
          exact absurd h2 (by simp)
        | symlink t =>
          have h2 : (Except.error InsertErr.nonDirectory : Except InsertErr Dir) = .ok d' := h
          exact absurd h2 (by simp)
        | directory sub =>
          have hsub : entriesSorted sub = true := by
            have := sortedDeep_of_btreeLookup top d hd _ hlk
            rwa [FsObject.sortedDeep] at this
          dsimp only at h
          cases hrec : dirInsert sub (r :: rest') obj with
          | ok sub' =>
            rw [hrec] at h
            injection h with h
            have hsub' : entriesSorted sub' = true := ih sub sub' hsub hrec
            exact h ▸ entriesSorted_btreeInsert top (.directory sub')
              (by rw [FsObject.sortedDeep]; exact hsub') d hd
          | error e =>
            rw [hrec] at h
            exact absurd h (by simp)

theorem foldl_dirInsert_sorted :
    ∀ (ins : List (FileName × FsObject)) (d0 : Dir) (d : Dir),
      entriesSorted d0 = true →
      (∀ pr ∈ ins, FsObject.sortedDeep pr.2 = true) →
      ins.foldlM (fun d pr => dirInsert d pr.1 pr.2) d0 = .ok d →
      entriesSorted d = true := by
  intro ins
  induction ins with
  | nil =>
    intro d0 d h0 _ h
    simp only [List.foldlM_nil] at h
    injection h with h
    exact h ▸ h0
  | cons pr rest ih =>
    intro d0 d h0 hall h
    rw [List.foldlM_cons] at h
    cases hstep : dirInsert d0 pr.1 pr.2 with
    | ok d1 =>
      rw [hstep] at h
      exact ih d1 d
        (dirInsert_sortedDeep pr.2 (hall pr (List.mem_cons_self pr rest)) pr.1 d0 d1 h0 hstep)
        (fun q hq => hall q (List.mem_cons_of_mem pr hq)) h
    | error e =>
      rw [hstep] at h
      have h2 : (Except.error e : Except InsertErr Dir) = .ok d := h
      exact absurd h2 (by simp)

theorem pairwise_of_entriesSorted :
    ∀ l : Dir, entriesSorted l = true →
      List.Pairwise (fun a b : Bytes × FsObject => bytesLt a.1 b.1 = true) l := by
  intro l
  induction l with
  | nil =>
    intro _
    exact List.Pairwise.nil
  | cons kv rest ih =>
    intro hs
    obtain ⟨k, v⟩ := kv
    rw [entriesSorted, Bool.and_eq_true, Bool.and_eq_true] at hs
    refine List.Pairwise.cons ?_ (ih hs.2)
    intro b hb
    exact (List.all_eq_true.mp hs.1.1) b hb

/-! ## Facts about the error behaviour of `Directory::insert` -/

theorem dirInsert_nil_ok (obj : FsObject) :
    ∀ path : FileName, path ≠ [] → (∀ c ∈ path, c ≠ []) →
      ∃ d', dirInsert [] path obj = .ok d' := by
  intro path
  induction path with
  | nil => exact fun h _ => absurd rfl h
  | cons top rest ih =>
    intro _ hcomp
    cases rest with
    | nil => exact ⟨btreeInsert top obj [], rfl⟩
    | cons r rest' =>
      obtain ⟨d', hd'⟩ :=
        ih (by simp) (fun c hc => hcomp c (List.mem_cons_of_mem top hc))
      refine ⟨btreeInsert top (.directory d') [], ?_⟩
      rw [dirInsert, if_neg (hcomp top (List.mem_cons_self top _))]
      simp only [btreeLookup, Option.getD_none]
      rw [hd']

theorem dirInsert_nonDir_iff (obj : FsObject) :
    ∀ path : FileName, path ≠ [] → (∀ c ∈ path, c ≠ []) → ∀ d : Dir,
      (dirInsert d path obj = .error .nonDirectory ↔ nonDirOnPath d path = true) := by
  intro path
  induction path with
  | nil => exact fun h _ => absurd rfl h
  | cons top rest ih =>
    intro _ hcomp d
    cases rest with
    | nil =>
      rw [dirInsert, nonDirOnPath]
      simp
    | cons r rest' =>
      have hrest : ∀ c ∈ r :: rest', c ≠ [] :=
        fun c hc => hcomp c (List.mem_cons_of_mem top hc)
      rw [dirInsert, nonDirOnPath, if_neg (hcomp top (List.mem_cons_self top _))]
      cases hlk : btreeLookup top d with
      | none =>
        simp only [Option.getD_none]
        obtain ⟨d', hd'⟩ := dirInsert_nil_ok obj (r :: rest') (by simp) hrest
        rw [hd']
        simp
      | some fso =>
        simp only [Option.getD_some]
        cases fso with
        | file e c => simp
        | symlink t => simp
        | directory sub =>
          dsimp only
          cases hrec : dirInsert sub (r :: rest') obj with
          | ok sub' => simp [← ih (by simp) hrest sub, hrec]
          | error e =>
            cases e with
            | nonDirectory => simp [← ih (by simp) hrest sub, hrec]
            | emptyPath =>
              simp only []
              constructor
              · intro h
                have h2 : (Except.error InsertErr.emptyPath : Except InsertErr Dir) =
                    .error .nonDirectory := h
                simp at h2
              · intro h
                have := (ih (by simp) hrest sub).mpr h
                rw [hrec] at this
                simp at this
            | emptyComponent =>
              simp only []
              constructor
              · intro h
                have h2 : (Except.error InsertErr.emptyComponent : Except InsertErr Dir) =
                    .error .nonDirectory := h
                simp at h2
              · intro h
                have := (ih (by simp) hrest sub).mpr h
                rw [hrec] at this
                simp at this

theorem dirInsert_not_emptyPath (obj : FsObject) :
    ∀ path : FileName, path ≠ [] → ∀ d : Dir,
      dirInsert d path obj ≠ .error .emptyPath := by
  intro path
  induction path with
  | nil => exact fun h => absurd rfl h
  | cons top rest ih =>
    intro _ d
    cases rest with
    | nil =>
      rw [dirInsert]
      simp
    | cons r rest' =>
      rw [dirInsert]
      by_cases htop : top = []
      · rw [if_pos htop]
        simp
      rw [if_neg htop]
      cases hlk : btreeLookup top d with
      | none =>
        simp only [Option.getD_none]
        cases hrec : dirInsert [] (r :: rest') obj with
        | ok sub' => simp
        | error e =>
          have := ih (by simp) []
          rw [hrec] at this
          simp only [ne_eq, Except.error.injEq] at this
          simp [this]
      | some fso =>
        simp only [Option.getD_some]
        cases fso with
        | file e c => simp
        | symlink t => simp
        | directory sub =>
          dsimp only
          cases hrec : dirInsert sub (r :: rest') obj with
          | ok sub' => simp
          | error e =>
            have := ih (by simp) sub
            rw [hrec] at this
            simp only [ne_eq, Except.error.injEq] at this
            simp [this]

theorem dirInsert_not_emptyComponent (obj : FsObject) :
    ∀ path : FileName, path ≠ [] → (∀ c ∈ path, c ≠ []) → ∀ d : Dir,
      dirInsert d path obj ≠ .error .emptyComponent := by
  intro path
  induction path with
  | nil => exact fun h _ => absurd rfl h
  | cons top rest ih =>
    intro _ hcomp d
    cases rest with
    | nil =>
      rw [dirInsert]
      simp
    | cons r rest' =>
      have hrest : ∀ c ∈ r :: rest', c ≠ [] :=
        fun c hc => hcomp c (List.mem_cons_of_mem top hc)
      rw [dirInsert, if_neg (hcomp top (List.mem_cons_self top _))]
      cases hlk : btreeLookup top d with
      | none =>
        simp only [Option.getD_none]
        cases hrec : dirInsert [] (r :: rest') obj with
        | ok sub' => simp
        | error e =>
          have := ih (by simp) hrest []
          rw [hrec] at this
          simp only [ne_eq, Except.error.injEq] at this
          simp [this]
      | some fso =>
        simp only [Option.getD_some]
        cases fso with
        | file e c => simp
        | symlink t => simp
        | directory sub =>
          dsimp only
          cases hrec : dirInsert sub (r :: rest') obj with
          | ok sub' => simp
          | error e =>
            have := ih (by simp) hrest sub
            rw [hrec] at this
            simp only [ne_eq, Except.error.injEq] at this
            simp [this]

/-! ## Claim theorems -/

/-- C3: for every byte string `s`, `str(s, sink)` appends exactly
`8 + s.len() + pad` bytes with `pad = (8 - s.len() mod 8) mod 8`, that count
is divisible by 8, and the appended block is the length as a `u64`
little-endian (8 bytes), the bytes of `s`, then `pad` zero bytes. -/
theorem str_block_shape (s w : Bytes) :
    str s w = w ++ (u64le s.length ++ s ++ List.replicate ((8 - s.length % 8) % 8) 0) ∧
    (u64le s.length).length = 8 ∧
    (str s w).length = w.length + (8 + s.length + (8 - s.length % 8) % 8) ∧
    (8 + s.length + (8 - s.length % 8) % 8) % 8 = 0 := by
  have h8 : s.length % 8 < 8 := Nat.mod_lt _ (by omega)
  have hp : (if s.length % 8 = 0 then 0 else 8 - s.length % 8) =
      (8 - s.length % 8) % 8 := by
    by_cases h : s.length % 8 = 0
    · simp [h]
    · simp [h]
      omega
  refine ⟨?_, by simp [u64le], ?_, ?_⟩
  · rw [str, serialiseJust]
    simp [hp]
  · rw [str, serialiseJust]
    simp [hp, u64le]
    omega
  · omega

/-- C9: serialisation is deterministic.  The bytes the top-level serialiser
appends do not depend on what was already in the sink, so two runs (into
sinks holding arbitrary prior contents `w1`, `w2`) contribute the same byte
stream, and any digest computed over the contributed stream agrees. -/
theorem serialisation_deterministic (t : FsObject) (w1 w2 : Bytes) :
    List.drop w1.length (t.serialiseToplevel w1) =
      List.drop w2.length (t.serialiseToplevel w2) ∧
    ∀ digestOf : Bytes → String,
      digestOf (List.drop w1.length (t.serialiseToplevel w1)) =
        digestOf (List.drop w2.length (t.serialiseToplevel w2)) := by
  have h1 := FsObject.serialiseToplevel_eq t w1
  have h2 := FsObject.serialiseToplevel_eq t w2
  rw [h1, h2, List.drop_left, List.drop_left]
  exact ⟨rfl, fun _ => rfl⟩


/-- C1, counterexample: the claim that symlink target bytes are preserved
verbatim fails.  For the tar link target `"/f"` (bytes `[47, 102]`) the
decoder stores the parsed path `["f"]` and the serialiser's symlink branch
emits the target string `"f"`, not `"/f"`: the leading `'/'` is dropped. -/
theorem symlink_target_normalized_cex :
    entryObject ⟨[108], .symlink, 511, [], some [47, 102]⟩ =
      .ok (some (.symlink [[102]])) ∧
    FileName.toPath [[102]] = [102] ∧
    FsObject.serialiseOne (.symlink [[102]]) [] =
      serialiseJust [102] (str targetBytes (type_ symlinkBytes [])) ∧
    serialiseJust [102] (str targetBytes (type_ symlinkBytes [])) ≠
      serialiseJust [47, 102] (str targetBytes (type_ symlinkBytes [])) := by
  refine ⟨rfl, rfl, rfl, ?_⟩
  decide

/-- C1, amended: the stored and emitted symlink target is the `'/'`-join of
the components obtained by splitting the tar header's link target on `'/'`
and dropping empty and `"."` components.  Re-parsing the emitted bytes gives
back the same components, so targets already in that normalized form are
preserved verbatim, but a leading `'/'`, repeated `'/'`, `"."` components and
a trailing `'/'` are removed. -/
theorem symlink_target_normalized (t : Bytes) (p : FileName)
    (h : FileName.tryFrom t = .ok p) :
    (∀ pa mo co, entryObject ⟨pa, .symlink, mo, co, some t⟩ =
      .ok (some (.symlink p))) ∧
    (∀ w, FsObject.serialiseOne (.symlink p) w =
      serialiseJust (FileName.toPath p) (str targetBytes (type_ symlinkBytes w))) ∧
    FileName.tryFrom (FileName.toPath p) = .ok p := by
  refine ⟨?_, fun w => rfl, tryFrom_toPath t p h⟩
  intro pa mo co
  simp [entryObject, h]

theorem symlink_target_normalized_witness :
    FileName.tryFrom [47, 102] = .ok [[102]] ∧
    FileName.tryFrom (FileName.toPath [[102]]) = .ok [[102]] :=
  ⟨rfl, (symlink_target_normalized [47, 102] [[102]] rfl).2.2⟩

/-- C2: the source's `serialise_one` emits, between `"regular"` and
`"contents"`, only the single string `"executable"`; the spec mandates the
two strings `"executable"` and `""`, and at the executable empty file the
source's output differs from that mandated form. -/
theorem executable_marker_single_string :
    (∀ c w : Bytes, FsObject.serialiseOne (.file .isExecutable c) w =
      serialiseJust c (str contentsBytes (str executableBytes (type_ regularBytes w)))) ∧
    FsObject.serialiseOne (.file .isExecutable []) [] ≠ specRegularExec [] [] := by
  refine ⟨fun c w => rfl, ?_⟩
  decide

/-- C4: a directory built by any sequence of `Directory::insert` calls (in
any order, from objects whose own directories are sorted) has strictly
ascending raw-byte keys at every level; the serialiser walks the entries in
exactly that list order, emitting per entry a block that carries the entry
name, so the NAR output lists names in ascending raw-byte order regardless
of insertion order. -/
theorem directory_entries_sorted (ins : List (FileName × FsObject)) (d : Dir)
    (hsub : ∀ pr ∈ ins, FsObject.sortedDeep pr.2 = true)
    (h : buildTree ins = .ok d) :
    entriesSorted d = true ∧
    List.Pairwise (fun a b : Bytes × FsObject => bytesLt a.1 b.1 = true) d ∧
    (∀ w, serialiseEntries d w = w ++ entriesOut d) ∧
    (∀ (k : Bytes) (v : FsObject) (rest : Dir),
      entriesOut ((k, v) :: rest) =
        strOut entryBytes ++ strOut lparenBytes ++ strOut nameBytes ++ strOut k ++
        strOut nodeBytes ++ strOut lparenBytes ++ v.narOne ++ strOut rparenBytes ++
        strOut rparenBytes ++ entriesOut rest) := by
  have hs : entriesSorted d = true := foldl_dirInsert_sorted ins [] d rfl hsub h
  refine ⟨hs, pairwise_of_entriesSorted d hs, serialiseEntries_eq d, ?_⟩
  intro k v rest
  rw [entriesOut, serialiseEntries]
  rw [serialiseEntries_eq rest, FsObject.serialiseOne_eq]
  simp [str_eq, entriesOut]

theorem directory_entries_sorted_witness :
    entriesSorted
      [([100, 105, 114, 101], FsObject.directory []),
       ([102], FsObject.file .notExecutable [97, 97, 97, 10]),
       ([102, 50], FsObject.symlink [[102]])] = true :=
  (directory_entries_sorted
    [([[102]], .file .notExecutable [97, 97, 97, 10]),
     ([[100, 105, 114, 101]], .directory []),
     ([[102, 50]], .symlink [[102]])] _
    (by
      intro pr hpr
      rcases List.mem_cons.mp hpr with h | hpr
      · rw [h]; rfl
      rcases List.mem_cons.mp hpr with h | hpr
      · rw [h]; rfl
      rcases List.mem_cons.mp hpr with h | hpr
      · rw [h]; rfl
      · exact absurd hpr (by simp))
    rfl).1

/-- C5: `Directory::insert` at a length-one path always succeeds and is the
map insert-or-overwrite; at a path of length at least two whose components
are non-empty — the spec's Path data type, which both public constructors
guarantee — it returns the error `"attempt to insert into a non directory"`
exactly when some existing strict-prefix entry of the path is not a
directory (`nonDirOnPath`), and it hits neither panic branch (neither the
empty-path `panic!` nor the `assert_ne!(top, b"")` of `lib.rs` 206, modelled
as `.emptyPath` and `.emptyComponent`).  The error case produces no tree, so
the object is not inserted. -/
theorem dir_insert_cases (d : Dir) (path : FileName) (obj : FsObject) :
    (∀ one : Bytes, dirInsert d [one] obj = .ok (btreeInsert one obj d)) ∧
    (2 ≤ path.length → (∀ c ∈ path, c ≠ []) →
      ((dirInsert d path obj = .error .nonDirectory ↔ nonDirOnPath d path = true) ∧
       dirInsert d path obj ≠ .error .emptyPath ∧
       dirInsert d path obj ≠ .error .emptyComponent)) := by
  refine ⟨fun one => rfl, fun hlen hcomp => ?_⟩
  have hne : path ≠ [] := by
    intro h
    rw [h] at hlen
    simp at hlen
  exact ⟨dirInsert_nonDir_iff obj path hne hcomp d,
    dirInsert_not_emptyPath obj path hne d,
    dirInsert_not_emptyComponent obj path hne hcomp d⟩

theorem dir_insert_cases_witness :
    (2 ≤ ([[97], [98]] : FileName).length ∧
      ∀ c ∈ ([[97], [98]] : FileName), c ≠ []) ∧
    (dirInsert [([97], FsObject.file .notExecutable [])] [[97], [98]]
        (.file .notExecutable []) = .error .nonDirectory ↔
      nonDirOnPath [([97], FsObject.file .notExecutable [])] [[97], [98]] = true) :=
  ⟨⟨by decide, by decide⟩,
   ((dir_insert_cases [([97], FsObject.file .notExecutable [])] [[97], [98]]
      (.file .notExecutable [])).2 (by decide) (by decide)).1⟩

/-- C6: the `FileName` constructor splits on `'/'`, filters out empty and
`"."` components, errors with `"empty file name"` exactly when nothing
remains, and in particular normalizes `"./foo/"`, `"foo//bar"` and `"foo/"`
to `[foo]`, `[foo, bar]` and `[foo]`. -/
theorem filename_parse_normalizes (v : Bytes) :
    (FileName.tryFrom v = .error "empty file name" ↔
      (rustSplit v).filter keepComponent = []) ∧
    ((rustSplit v).filter keepComponent ≠ [] →
      FileName.tryFrom v = .ok ((rustSplit v).filter keepComponent)) ∧
    FileName.tryFrom [46, 47, 102, 111, 111, 47] = .ok [[102, 111, 111]] ∧
    FileName.tryFrom [102, 111, 111, 47, 47, 98, 97, 114] =
      .ok [[102, 111, 111], [98, 97, 114]] ∧
    FileName.tryFrom [102, 111, 111, 47] = .ok [[102, 111, 111]] := by
  refine ⟨?_, ?_, rfl, rfl, rfl⟩
  · rw [FileName.tryFrom]
    by_cases hl : ((rustSplit v).filter keepComponent).length = 0
    · simp [hl, List.length_eq_zero.mp hl]
    · rw [if_neg hl]
      simp only [List.length_eq_zero] at hl
      simp [hl]
  · intro hne
    rw [FileName.tryFrom, if_neg (by simp [hne])]

theorem filename_parse_normalizes_witness :
    FileName.tryFrom [102] = .ok [[102]] :=
  (filename_parse_normalizes [102]).2.1 (by decide)

/-- C7: under `StripRoot = Strip` an entry whose parsed path has a single
component is skipped, and an entry whose parsed path is `c :: p` with `p`
nonempty is inserted at `p`; on the spec's `pkg-1.0` scenario, `Strip` yields
a root with `README` and `src` (the latter containing `main.c`) while
`DontStrip` yields a root whose single entry is `pkg-1.0`. -/
theorem strip_root_behavior :
    (∀ (tree : Dir) (e : TarEntry) (obj : FsObject) (c : Bytes),
      entryObject e = .ok (some obj) → FileName.tryFrom e.path = .ok [c] →
      tarProcessEntry .stripRoot tree e = .ok tree) ∧
    (∀ (tree : Dir) (e : TarEntry) (obj : FsObject) (c : Bytes) (p : FileName),
      entryObject e = .ok (some obj) → FileName.tryFrom e.path = .ok (c :: p) →
      p ≠ [] →
      tarProcessEntry .stripRoot tree e =
        match dirInsert tree p obj with
        | .ok tree2 => .ok tree2
        | .error .nonDirectory => .error "attempt to insert into a non directory"
        | .error .emptyPath => .error "how did we get an empty path?"
        | .error .emptyComponent => .error "assertion failed: empty path component") ∧
    tarToFsObject [tarEntryReadme, tarEntryMainC, tarEntryTopDir] .stripRoot =
      .ok (.directory
        [([82, 69, 65, 68, 77, 69], .file .notExecutable [65]),
         ([115, 114, 99],
          .directory [([109, 97, 105, 110, 46, 99], .file .notExecutable [66])])]) ∧
    tarToFsObject [tarEntryReadme, tarEntryMainC, tarEntryTopDir] .dontStripRoot =
      .ok (.directory [([112, 107, 103, 45, 49, 46, 48], .directory [])]) := by
  refine ⟨?_, ?_, rfl, rfl⟩
  · intro tree e obj c h1 h2
    rw [tarProcessEntry, h1, h2]
    simp [FileName.dropFirst]
  · intro tree e obj c p h1 h2 hp
    rw [tarProcessEntry, h1, h2]
    have hlen : ¬(c :: p).length ≤ 1 := by
      cases p with
      | nil => exact absurd rfl hp
      | cons a b => simp
    simp [FileName.dropFirst, hlen, hp]

theorem strip_root_behavior_witness :
    tarProcessEntry .stripRoot [] tarEntryTopDir = .ok [] :=
  strip_root_behavior.1 [] tarEntryTopDir (.directory [])
    [112, 107, 103, 45, 49, 46, 48] rfl rfl

/-- C8: whenever `tar_to_fsobject` succeeds its result is the `Directory`
variant (the decoded entries wrapped in an outer directory), never a `File`
or `Symlink` at the top level. -/
theorem tar_result_is_directory (entries : List TarEntry) (strip : StripRoot)
    (fso : FsObject) (h : tarToFsObject entries strip = .ok fso) :
    ∃ d : Dir, fso = .directory d := by
  rw [tarToFsObject] at h
  cases hf : List.foldlM (tarProcessEntry strip) ([] : Dir) entries with
  | ok tree =>
    rw [hf] at h
    injection h with h
    exact ⟨tree, h.symm⟩
  | error e =>
    rw [hf] at h
    exact absurd h (by simp)

theorem tar_result_is_directory_witness :
    ∃ d : Dir, FsObject.directory [([102], FsObject.file .notExecutable [])] =
      .directory d :=
  tar_result_is_directory [⟨[102], .file, 420, [], none⟩] .dontStripRoot _ rfl

/-- C10: any `FileName` produced by the public constructors (the byte parser,
which rejects empty component lists, or `singleton`) is nonempty, so
`Directory::insert` never reaches its empty-path panic branch on it. -/
theorem insert_no_empty_path_panic (s : Bytes) (p : FileName) (c : Bytes)
    (h : FileName.tryFrom s = .ok p ∨ p = FileName.singleton c) :
    ∀ (d : Dir) (obj : FsObject), dirInsert d p obj ≠ .error .emptyPath := by
  have hne : p ≠ [] := by
    rcases h with h | h
    · exact (tryFrom_ok_facts s p h).1
    · rw [h, FileName.singleton]
      simp
  exact fun d obj => dirInsert_not_emptyPath obj p hne d

theorem insert_no_empty_path_panic_witness :
    dirInsert [] [[102]] (.file .notExecutable []) ≠ .error .emptyPath :=
  insert_no_empty_path_panic [102] [[102]] [] (.inl rfl) [] (.file .notExecutable [])

end Nyarr
